import Mathlib

/-!
Verification of the model-parallel layers in `mpu/layers.py` of the
face_recognition_distribute_pallel repository.

Tensors are shallowly embedded as nested lists over a linear ordered field
(instantiated at `ℚ` for concrete evaluation and at `ℝ` where the real
trigonometric constants of the margin head matter).  The square-root
primitive of the external tensor engine is passed in as a function
parameter.  Collective communication primitives (`mappings.py`) and the
partition utilities (`utils.py`) are not part of the sources; they are
modelled from the spec's collaborator contracts and are marked as such.
-/

namespace MPU

variable {α : Type} [LinearOrderedField α]

/-- Dot product of two vectors, `(xs * ys).sum` with implicit truncation to
the shorter length (all uses are length-aligned). -/
def dotProd (xs ys : List α) : α :=
  (List.zipWith (· * ·) xs ys).sum

/-- `torch.clamp(x, lo, hi) = min(max(x, lo), hi)`. -/
def clampVal (lo hi x : α) : α :=
  min (max x lo) hi

/-- `F.normalize(w, p=2, dim=1, eps)` applied to one row:
`w / max(sqrt(w · w), eps)`, with the engine's square root passed in. -/
def normalizeRow (sqrtFn : α → α) (eps : α) (w : List α) : List α :=
  w.map (fun v => v / max (sqrtFn (dotProd w w)) eps)

/-- `F.linear(x, W)` with no bias: row `i`, column `j` is `x_i · W_j`. -/
def linearNoBias (x w : List (List α)) : List (List α) :=
  x.map (fun xi => w.map (fun wj => dotProd xi wj))

/-- `F.linear(x, W, b)`: as `linearNoBias` and, when a bias is present, the
bias vector added to every output row. -/
def linearB (x w : List (List α)) (b : Option (List α)) : List (List α) :=
  match b with
  | none => linearNoBias x w
  | some bv => (linearNoBias x w).map (fun row => List.zipWith (· + ·) row bv)

/-- Modelled from the spec: `gather_concat(tensor, dim=0)` from
`mappings.py` (absent from the sources) — concatenates each rank's tensor
along the first (batch) dimension in rank order.  This is the contract of
`gather_from_model_parallel_region_align_target_dim`. -/
def gatherConcat0 {β : Type} (parts : List (List β)) : List β :=
  parts.flatten

/-- Element-wise sum of two matrices. -/
def addMat (a b : List (List α)) : List (List α) :=
  List.zipWith (fun r1 r2 => List.zipWith (· + ·) r1 r2) a b

/-- Modelled from the spec: `reduce_sum(tensor)` from `mappings.py`
(absent from the sources) — element-wise sum of the per-rank tensors,
identical on all ranks.  This is the contract of
`reduce_from_model_parallel_region`. -/
def reduceSumParts (parts : List (List (List α))) : List (List α) :=
  match parts with
  | [] => []
  | p :: ps => ps.foldl addMat p

/-- Concatenation of two matrices along the last (column) dimension. -/
def catCols (a b : List (List α)) : List (List α) :=
  List.zipWith (· ++ ·) a b

/-- Modelled from the spec: `gather_concat(tensor, dim=-1)` from
`mappings.py` (absent from the sources) — concatenates each rank's tensor
along the last dimension in rank order.  This is the contract of
`gather_from_model_parallel_region`. -/
def gatherConcat1 (parts : List (List (List α))) : List (List α) :=
  match parts with
  | [] => []
  | p :: ps => ps.foldl catCols p

/-- Modelled from the spec: `scatter_split(tensor, dim=-1)` from
`mappings.py` (absent from the sources) — rank `r` receives the `r`-th
contiguous width-`p` slice of the last dimension.  This is the contract of
`scatter_to_model_parallel_region`; the same slicing describes how a
column-sharded tensor is laid out across ranks. -/
def scatterSplitLastDim (world p : ℕ) (x : List (List α)) :
    List (List (List α)) :=
  (List.range world).map (fun r => x.map (fun row => (row.drop (r * p)).take p))

namespace VocabUtility

/-- Modelled from the spec: `divide(numerator, denominator)` from
`utils.py` (absent from the sources) — the exact integer quotient, failing
with a configuration error when the division leaves a remainder. -/
def divide (numerator denominator : ℕ) : Option ℕ :=
  if numerator % denominator = 0 then some (numerator / denominator) else none

/-- Modelled from the spec:
`VocabUtility.vocab_range_from_per_partition_vocab_size` from `utils.py`
(absent from the sources) — the half-open interval
`[rank * per_partition_size, (rank+1) * per_partition_size)`. -/
def vocab_range_from_per_partition_vocab_size
    (per_partition_size rank _world_size : ℕ) : ℕ × ℕ :=
  (rank * per_partition_size, (rank + 1) * per_partition_size)

/-- Modelled from the spec:
`VocabUtility.vocab_range_from_global_vocab_size` from `utils.py`
(absent from the sources) — computes `per_partition = divide(global, world)`
and returns `[rank * per_partition, (rank+1) * per_partition)`. -/
def vocab_range_from_global_vocab_size
    (global_size rank world_size : ℕ) : Option (ℕ × ℕ) :=
  (divide global_size world_size).map
    (fun per => vocab_range_from_per_partition_vocab_size per rank world_size)

end VocabUtility

/-- The four margin buffers registered by
`ArcfaceColumnParallelLinear.__init__` (layers.py:352-355). -/
structure ArcConsts (α : Type) where
  cos_m : α
  sin_m : α
  mm : α
  threshold : α

/-- The buffers as derived from the margin angle `m` in the source:
`cos_m = cos m`, `sin_m = sin m`, `mm = sin_m * m`,
`threshold = cos (π - m)` (layers.py:352-355). -/
noncomputable def arcConstsOfMargin (m : ℝ) : ArcConsts ℝ :=
  ⟨Real.cos m, Real.sin m, Real.sin m * m, Real.cos (Real.pi - m)⟩

/-- The per-element margin adjustment of layers.py:440-443: first
`x * cos_m - sqrt (1 - x^2) * sin_m`, then overwritten with `x - mm` at the
elements where `x ≤ threshold`. -/
def marginAdjust (sqrtFn : α → α) (c : ArcConsts α) (x : α) : α :=
  if x ≤ c.threshold then x - c.mm
  else x * c.cos_m - sqrtFn (1 - x ^ 2) * c.sin_m

/-- One row of `cos_theta` (layers.py:435-437): `F.linear` of the embedding
against the row-normalized weight shard (no bias: the head defaults
`bias=False`), clamped to `[-1, 1]`. -/
def cosRow (sqrtFn : α → α) (eps : α) (weight : List (List α)) (e : List α) :
    List α :=
  weight.map (fun wj => clampVal (-1) 1 (dotProd e (normalizeRow sqrtFn eps wj)))

/-- The indexed write-back `cos_theta[row_idx, valid_label_idx] = cos_theta_m`
followed by `cos_theta *= scalar` (layers.py:445-448), expressed pointwise:
the write targets pairwise-distinct (sample, class) positions — sample `i`'s
row is touched at most at column `label i - vocab_start`, and only when the
label is owned — so the scattered write equals this per-entry update.
`j` is the index of the first element of the remaining row. -/
def adjustRow (sqrtFn : α → α) (c : ArcConsts α) (s : α)
    (vocabStart vocabEnd l : ℤ) : ℕ → List α → List α
  | _, [] => []
  | j, x :: xs =>
      (s * (if vocabStart ≤ l ∧ l < vocabEnd ∧ (j : ℤ) = l - vocabStart
            then marginAdjust sqrtFn c x else x))
        :: adjustRow sqrtFn c s vocabStart vocabEnd l (j + 1) xs

/-- `ArcfaceColumnParallelLinear.forward` (layers.py:422-454) with the
default `gather_output=False`: gather embeddings and labels across ranks
along the batch dimension, compute the clamped normalized-weight cosine,
write the margin adjustment back at the owned true-class positions, scale
everything by `s`, and return the logits with the gathered labels. -/
def arcForward (sqrtFn : α → α) (eps : α) (c : ArcConsts α) (s : α)
    (vocabStart vocabEnd : ℤ) (weight : List (List α))
    (embParts : List (List (List α))) (labelParts : List (List ℤ)) :
    List (List α) × List ℤ :=
  let embeddings := gatherConcat0 embParts
  let labels := gatherConcat0 labelParts
  (List.zipWith
    (fun e l => adjustRow sqrtFn c s vocabStart vocabEnd l 0
                  (cosRow sqrtFn eps weight e))
    embeddings labels,
   labels)

/-- Entry `(i, j)` of the logits returned by `arcForward` (out-of-range
indices default to `0`). -/
def arcLogit (sqrtFn : α → α) (eps : α) (c : ArcConsts α) (s : α)
    (vocabStart vocabEnd : ℤ) (weight : List (List α))
    (embParts : List (List (List α))) (labelParts : List (List ℤ))
    (i j : ℕ) : α :=
  (((arcForward sqrtFn eps c s vocabStart vocabEnd weight embParts
      labelParts).1).getD i []).getD j 0

/-- Entry `(i, j)` of the clamped cosine-similarity matrix the margin head
computes before the write-back: sample `i`'s gathered embedding against the
normalized weight row `j`. -/
def cosEntry (sqrtFn : α → α) (eps : α) (weight : List (List α))
    (embParts : List (List (List α))) (i j : ℕ) : α :=
  (cosRow sqrtFn eps weight ((gatherConcat0 embParts).getD i [])).getD j 0

section EntryLemmas

lemma getD_zipWith_of_lt {β γ δ : Type} (f : β → γ → δ) (as : List β)
    (bs : List γ) (i : ℕ) (da : β) (db : γ) (dd : δ)
    (ha : i < as.length) (hb : i < bs.length) :
    (List.zipWith f as bs).getD i dd = f (as.getD i da) (bs.getD i db) := by
  induction as generalizing bs i with
  | nil => simp at ha
  | cons a as ih =>
    cases bs with
    | nil => simp at hb
    | cons b bs =>
      cases i with
      | zero => rfl
      | succ i =>
        simp only [List.zipWith_cons_cons, List.getD_cons_succ]
        exact ih bs i (Nat.lt_of_succ_lt_succ ha) (Nat.lt_of_succ_lt_succ hb)

lemma adjustRow_length (sqrtFn : α → α) (c : ArcConsts α) (s : α)
    (vs ve l : ℤ) (j : ℕ) (xs : List α) :
    (adjustRow sqrtFn c s vs ve l j xs).length = xs.length := by
  induction xs generalizing j with
  | nil => rfl
  | cons x xs ih => simpa [adjustRow] using ih (j + 1)

lemma adjustRow_getD (sqrtFn : α → α) (c : ArcConsts α) (s : α)
    (vs ve l : ℤ) (j i : ℕ) (xs : List α) (hi : i < xs.length) :
    (adjustRow sqrtFn c s vs ve l j xs).getD i 0
      = s * (if vs ≤ l ∧ l < ve ∧ ((j + i : ℕ) : ℤ) = l - vs
             then marginAdjust sqrtFn c (xs.getD i 0) else xs.getD i 0) := by
  induction xs generalizing j i with
  | nil => simp at hi
  | cons x xs ih =>
    cases i with
    | zero => simp [adjustRow]
    | succ i =>
      have h := ih (j + 1) i (Nat.lt_of_succ_lt_succ hi)
      simp only [adjustRow, List.getD_cons_succ]
      rw [h]
      have : j + 1 + i = j + (i + 1) := by omega
      rw [this]

end EntryLemmas

lemma cosRow_length (sqrtFn : α → α) (eps : α) (weight : List (List α))
    (e : List α) : (cosRow sqrtFn eps weight e).length = weight.length := by
  simp [cosRow]

/-- The entry formula for `arcForward`: entry `(i, j)` of the returned
logits is `s` times either the margin-adjusted or the plain clamped cosine,
according to whether sample `i`'s gathered label is owned by this rank and
`j` is its local column. -/
lemma arcLogit_eq (sqrtFn : α → α) (eps : α) (c : ArcConsts α) (s : α)
    (vs ve : ℤ) (weight : List (List α))
    (embParts : List (List (List α))) (labelParts : List (List ℤ))
    (i j : ℕ)
    (hi : i < (gatherConcat0 embParts).length)
    (hlab : (gatherConcat0 labelParts).length = (gatherConcat0 embParts).length)
    (hj : j < weight.length) :
    arcLogit sqrtFn eps c s vs ve weight embParts labelParts i j
      = s * (if vs ≤ (gatherConcat0 labelParts).getD i 0
               ∧ (gatherConcat0 labelParts).getD i 0 < ve
               ∧ (j : ℤ) = (gatherConcat0 labelParts).getD i 0 - vs
             then marginAdjust sqrtFn c (cosEntry sqrtFn eps weight embParts i j)
             else cosEntry sqrtFn eps weight embParts i j) := by
  unfold arcLogit arcForward
  rw [getD_zipWith_of_lt _ _ _ i [] 0 [] hi (by rw [hlab]; exact hi)]
  rw [adjustRow_getD _ _ _ _ _ _ 0 j _
    (by rw [cosRow_length]; exact hj)]
  simp [cosEntry]

/-- C1: after gathering embeddings and labels across ranks,
`ArcfaceColumnParallelLinear.forward` writes the margin-adjusted value back
into `cos_theta` at exactly the (sample, class) positions whose gathered
label lies in this rank's owned range
`[vocab_start_index, vocab_end_index)`; every other entry — including the
true-class columns of samples whose label lies outside `[0, total_classes)`,
which no rank owns — keeps the plain clamped cosine similarity and is only
multiplied by the scale `s`. -/
theorem arcface_writeback_exactly_owned
    (sqrtFn : ℚ → ℚ) (eps : ℚ) (c : ArcConsts ℚ) (s : ℚ)
    (per rank world : ℕ) (weight : List (List ℚ))
    (embParts : List (List (List ℚ))) (labelParts : List (List ℤ))
    (i j : ℕ)
    (hi : i < (gatherConcat0 embParts).length)
    (hlab : (gatherConcat0 labelParts).length = (gatherConcat0 embParts).length)
    (hj : j < weight.length)
    (hrank : rank < world) :
    (arcLogit sqrtFn eps c s
        ((VocabUtility.vocab_range_from_per_partition_vocab_size per rank world).1 : ℤ)
        ((VocabUtility.vocab_range_from_per_partition_vocab_size per rank world).2 : ℤ)
        weight embParts labelParts i j
      = s * (if ((rank * per : ℕ) : ℤ) ≤ (gatherConcat0 labelParts).getD i 0
               ∧ (gatherConcat0 labelParts).getD i 0 < (((rank + 1) * per : ℕ) : ℤ)
               ∧ (j : ℤ) = (gatherConcat0 labelParts).getD i 0 - ((rank * per : ℕ) : ℤ)
             then marginAdjust sqrtFn c (cosEntry sqrtFn eps weight embParts i j)
             else cosEntry sqrtFn eps weight embParts i j))
    ∧ ((gatherConcat0 labelParts).getD i 0 < 0
        ∨ ((world * per : ℕ) : ℤ) ≤ (gatherConcat0 labelParts).getD i 0 →
        arcLogit sqrtFn eps c s
            ((VocabUtility.vocab_range_from_per_partition_vocab_size per rank world).1 : ℤ)
            ((VocabUtility.vocab_range_from_per_partition_vocab_size per rank world).2 : ℤ)
            weight embParts labelParts i j
          = s * cosEntry sqrtFn eps weight embParts i j) := by
  have key := arcLogit_eq sqrtFn eps c s
    ((VocabUtility.vocab_range_from_per_partition_vocab_size per rank world).1 : ℤ)
    ((VocabUtility.vocab_range_from_per_partition_vocab_size per rank world).2 : ℤ)
    weight embParts labelParts i j hi hlab hj
  simp only [VocabUtility.vocab_range_from_per_partition_vocab_size] at key
  refine ⟨key, fun hout => ?_⟩
  simp only [VocabUtility.vocab_range_from_per_partition_vocab_size]
  rw [key, if_neg]
  intro hcond
  obtain ⟨h1, h2, _⟩ := hcond
  have hle : (rank + 1) * per ≤ world * per := Nat.mul_le_mul_right per hrank
  have h0 : (0 : ℤ) ≤ ((rank * per : ℕ) : ℤ) := Int.natCast_nonneg _
  rcases hout with h | h
  · omega
  · have : (((rank + 1) * per : ℕ) : ℤ) ≤ ((world * per : ℕ) : ℤ) := by
      exact_mod_cast hle
    omega

/-- Witness for `arcface_writeback_exactly_owned` at a concrete one-rank,
one-class, one-sample instance. -/
theorem arcface_writeback_exactly_owned_witness :
    (0 < (gatherConcat0 ([[[(1 : ℚ)]]] : List (List (List ℚ)))).length
      ∧ (gatherConcat0 ([[(0 : ℤ)]] : List (List ℤ))).length
          = (gatherConcat0 ([[[(1 : ℚ)]]] : List (List (List ℚ)))).length
      ∧ 0 < ([[(1 : ℚ)]] : List (List ℚ)).length ∧ 0 < 1)
    ∧ ((arcLogit (fun x => x) 1 ⟨1, 0, 0, (-2)⟩ 1
          ((VocabUtility.vocab_range_from_per_partition_vocab_size 1 0 1).1 : ℤ)
          ((VocabUtility.vocab_range_from_per_partition_vocab_size 1 0 1).2 : ℤ)
          [[(1 : ℚ)]] [[[(1 : ℚ)]]] [[(0 : ℤ)]] 0 0
        = 1 * (if ((0 * 1 : ℕ) : ℤ) ≤ (gatherConcat0 ([[(0 : ℤ)]] : List (List ℤ))).getD 0 0
                 ∧ (gatherConcat0 ([[(0 : ℤ)]] : List (List ℤ))).getD 0 0 < (((0 + 1) * 1 : ℕ) : ℤ)
                 ∧ ((0 : ℕ) : ℤ) = (gatherConcat0 ([[(0 : ℤ)]] : List (List ℤ))).getD 0 0 - ((0 * 1 : ℕ) : ℤ)
               then marginAdjust (fun x => x) ⟨1, 0, 0, (-2)⟩
                      (cosEntry (fun x => x) 1 [[(1 : ℚ)]] [[[(1 : ℚ)]]] 0 0)
               else cosEntry (fun x => x) 1 [[(1 : ℚ)]] [[[(1 : ℚ)]]] 0 0))
      ∧ ((gatherConcat0 ([[(0 : ℤ)]] : List (List ℤ))).getD 0 0 < 0
          ∨ ((1 * 1 : ℕ) : ℤ) ≤ (gatherConcat0 ([[(0 : ℤ)]] : List (List ℤ))).getD 0 0 →
          arcLogit (fun x => x) 1 ⟨1, 0, 0, (-2)⟩ 1
              ((VocabUtility.vocab_range_from_per_partition_vocab_size 1 0 1).1 : ℤ)
              ((VocabUtility.vocab_range_from_per_partition_vocab_size 1 0 1).2 : ℤ)
              [[(1 : ℚ)]] [[[(1 : ℚ)]]] [[(0 : ℤ)]] 0 0
            = 1 * cosEntry (fun x => x) 1 [[(1 : ℚ)]] [[[(1 : ℚ)]]] 0 0)) :=
  ⟨⟨by decide, by decide, by decide, by decide⟩,
   arcface_writeback_exactly_owned (fun x => x) 1 ⟨1, 0, 0, (-2)⟩ 1 1 0 1
     [[(1 : ℚ)]] [[[(1 : ℚ)]]] [[(0 : ℤ)]] 0 0
     (by decide) (by decide) (by decide) (by decide)⟩

/-- C2: at every selected (sample, owned-class) position, the margin head
produces `cos_theta*cos_m - sqrt(1 - cos_theta^2)*sin_m` when the clamped
cosine exceeds the threshold and `cos_theta - mm` otherwise (both scaled by
`s`), where the construction-time buffers satisfy `cos_m = cos m`,
`sin_m = sin m`, `mm = sin m * m`, `threshold = cos (π - m)`. -/
theorem arcface_margin_formula
    (m s : ℝ) (sqrtFn : ℝ → ℝ) (eps : ℝ) (vs ve : ℤ)
    (weight : List (List ℝ)) (embParts : List (List (List ℝ)))
    (labelParts : List (List ℤ)) (i j : ℕ)
    (hi : i < (gatherConcat0 embParts).length)
    (hlab : (gatherConcat0 labelParts).length = (gatherConcat0 embParts).length)
    (hj : j < weight.length)
    (howned : vs ≤ (gatherConcat0 labelParts).getD i 0
      ∧ (gatherConcat0 labelParts).getD i 0 < ve
      ∧ (j : ℤ) = (gatherConcat0 labelParts).getD i 0 - vs) :
    (arcConstsOfMargin m).cos_m = Real.cos m
    ∧ (arcConstsOfMargin m).sin_m = Real.sin m
    ∧ (arcConstsOfMargin m).mm = Real.sin m * m
    ∧ (arcConstsOfMargin m).threshold = Real.cos (Real.pi - m)
    ∧ arcLogit sqrtFn eps (arcConstsOfMargin m) s vs ve weight embParts
        labelParts i j
      = s * (if cosEntry sqrtFn eps weight embParts i j ≤ Real.cos (Real.pi - m)
             then cosEntry sqrtFn eps weight embParts i j - Real.sin m * m
             else cosEntry sqrtFn eps weight embParts i j * Real.cos m
                    - sqrtFn (1 - cosEntry sqrtFn eps weight embParts i j ^ 2)
                        * Real.sin m) := by
  refine ⟨rfl, rfl, rfl, rfl, ?_⟩
  rw [arcLogit_eq sqrtFn eps (arcConstsOfMargin m) s vs ve weight embParts
    labelParts i j hi hlab hj, if_pos howned]
  simp only [marginAdjust, arcConstsOfMargin]

/-- Witness for `arcface_margin_formula` at a concrete one-rank, one-class,
one-sample instance with margin angle `0`. -/
theorem arcface_margin_formula_witness :
    (0 < (gatherConcat0 ([[[(1 : ℝ)]]] : List (List (List ℝ)))).length
      ∧ (gatherConcat0 ([[(0 : ℤ)]] : List (List ℤ))).length
          = (gatherConcat0 ([[[(1 : ℝ)]]] : List (List (List ℝ)))).length
      ∧ 0 < ([[(1 : ℝ)]] : List (List ℝ)).length
      ∧ ((0 : ℤ) ≤ (gatherConcat0 ([[(0 : ℤ)]] : List (List ℤ))).getD 0 0
          ∧ (gatherConcat0 ([[(0 : ℤ)]] : List (List ℤ))).getD 0 0 < 1
          ∧ ((0 : ℕ) : ℤ) = (gatherConcat0 ([[(0 : ℤ)]] : List (List ℤ))).getD 0 0 - 0))
    ∧ ((arcConstsOfMargin 0).cos_m = Real.cos 0
      ∧ (arcConstsOfMargin 0).sin_m = Real.sin 0
      ∧ (arcConstsOfMargin 0).mm = Real.sin 0 * 0
      ∧ (arcConstsOfMargin 0).threshold = Real.cos (Real.pi - 0)
      ∧ arcLogit (fun x => x) 1 (arcConstsOfMargin 0) 1 0 1 [[(1 : ℝ)]]
          [[[(1 : ℝ)]]] [[(0 : ℤ)]] 0 0
        = 1 * (if cosEntry (fun x => x) 1 [[(1 : ℝ)]] [[[(1 : ℝ)]]] 0 0
                  ≤ Real.cos (Real.pi - 0)
               then cosEntry (fun x => x) 1 [[(1 : ℝ)]] [[[(1 : ℝ)]]] 0 0
                      - Real.sin 0 * 0
               else cosEntry (fun x => x) 1 [[(1 : ℝ)]] [[[(1 : ℝ)]]] 0 0
                      * Real.cos 0
                    - (fun x => x)
                        (1 - cosEntry (fun x => x) 1 [[(1 : ℝ)]] [[[(1 : ℝ)]]] 0 0 ^ 2)
                      * Real.sin 0)) :=
  ⟨⟨by decide, by decide, by decide, by decide⟩,
   arcface_margin_formula 0 1 (fun x => x) 1 0 1 [[(1 : ℝ)]] [[[(1 : ℝ)]]]
     [[(0 : ℤ)]] 0 0 (by decide) (by decide) (by decide) (by decide)⟩

/-- `VocabParallelEmbedding.forward` before the reduction
(layers.py:104-117): build the out-of-range mask, shift ids by
`vocab_start_index` with masked entries clamped to `0`, look up the local
shard, and zero every masked row. -/
def vpeLocalForward (vocabStart vocabEnd : ℤ) (embDim : ℕ)
    (weight : List (List α)) (ids : List ℤ) : List (List α) :=
  ids.map (fun id =>
    let mask := id < vocabStart ∨ vocabEnd ≤ id
    let maskedId : ℤ := if mask then 0 else id - vocabStart
    let row := weight.getD maskedId.toNat []
    if mask then List.replicate embDim 0 else row)

/-- `VocabParallelEmbedding.forward` (layers.py:104-120): every rank's
masked local lookup combined by the summation-reduction collective.  A rank
is its `(vocab_start_index, vocab_end_index)` pair and its weight shard. -/
def vpeForward (ranks : List ((ℤ × ℤ) × List (List α))) (embDim : ℕ)
    (ids : List ℤ) : List (List α) :=
  reduceSumParts
    (ranks.map (fun rk => vpeLocalForward rk.1.1 rk.1.2 embDim rk.2 ids))

/-- `p` is an `m × n` matrix. -/
def IsMat (m n : ℕ) (p : List (List α)) : Prop :=
  p.length = m ∧ ∀ i, i < m → ((p.getD i []).length = n)

section ShapeLemmas

lemma getD_map_of_lt {β γ : Type} (f : β → γ) (l : List β) (i : ℕ)
    (db : β) (dc : γ) (hi : i < l.length) :
    (l.map f).getD i dc = f (l.getD i db) := by
  induction l generalizing i with
  | nil => simp at hi
  | cons a l ih =>
    cases i with
    | zero => rfl
    | succ i =>
      simp only [List.map_cons, List.getD_cons_succ]
      exact ih i (Nat.lt_of_succ_lt_succ hi)

lemma addMat_isMat {m n : ℕ} {a b : List (List α)}
    (ha : IsMat m n a) (hb : IsMat m n b) : IsMat m n (addMat a b) := by
  obtain ⟨hal, har⟩ := ha
  obtain ⟨hbl, hbr⟩ := hb
  constructor
  · simp [addMat, hal, hbl]
  · intro i hi
    have hrow : (addMat a b).getD i []
        = List.zipWith (· + ·) (a.getD i []) (b.getD i []) :=
      getD_zipWith_of_lt _ a b i [] [] [] (by omega) (by omega)
    rw [hrow, List.length_zipWith, har i hi, hbr i hi]
    exact min_self n

lemma addMat_entry {m n : ℕ} {a b : List (List α)}
    (ha : IsMat m n a) (hb : IsMat m n b) (i j : ℕ) (hi : i < m) (hj : j < n) :
    (((addMat a b).getD i []).getD j 0)
      = ((a.getD i []).getD j 0) + ((b.getD i []).getD j 0) := by
  obtain ⟨hal, har⟩ := ha
  obtain ⟨hbl, hbr⟩ := hb
  have hrow : (addMat a b).getD i []
      = List.zipWith (· + ·) (a.getD i []) (b.getD i []) :=
    getD_zipWith_of_lt _ a b i [] [] [] (by omega) (by omega)
  rw [hrow]
  exact getD_zipWith_of_lt _ _ _ j 0 0 0 (by rw [har i hi]; exact hj)
    (by rw [hbr i hi]; exact hj)

lemma foldl_addMat_isMat {m n : ℕ} (ps : List (List (List α)))
    (acc : List (List α)) (hacc : IsMat m n acc)
    (hps : ∀ p ∈ ps, IsMat m n p) : IsMat m n (ps.foldl addMat acc) := by
  induction ps generalizing acc with
  | nil => exact hacc
  | cons p ps ih =>
    exact ih (addMat acc p)
      (addMat_isMat hacc (hps p (List.mem_cons_self _ _)))
      (fun q hq => hps q (List.mem_cons_of_mem p hq))

lemma reduceSumParts_isMat {m n : ℕ} {parts : List (List (List α))}
    (hne : parts ≠ []) (h : ∀ p ∈ parts, IsMat m n p) :
    IsMat m n (reduceSumParts parts) := by
  cases parts with
  | nil => exact absurd rfl hne
  | cons p ps =>
    exact foldl_addMat_isMat ps p (h p (List.mem_cons_self _ _))
      (fun q hq => h q (List.mem_cons_of_mem p hq))

lemma foldl_addMat_entry {m n : ℕ} (ps : List (List (List α)))
    (acc : List (List α)) (hacc : IsMat m n acc)
    (hps : ∀ p ∈ ps, IsMat m n p) (i j : ℕ) (hi : i < m) (hj : j < n) :
    (((ps.foldl addMat acc).getD i []).getD j 0)
      = ((acc.getD i []).getD j 0)
          + (ps.map (fun p => (p.getD i []).getD j 0)).sum := by
  induction ps generalizing acc with
  | nil => simp
  | cons p ps ih =>
    have hp : IsMat m n p := hps p (List.mem_cons_self _ _)
    have := ih (addMat acc p) (addMat_isMat hacc hp)
      (fun q hq => hps q (List.mem_cons_of_mem p hq))
    simp only [List.foldl_cons, List.map_cons, List.sum_cons]
    rw [this, addMat_entry hacc hp i j hi hj]
    ring

/-- Entry `(i, j)` of the summation-reduction is the sum of the parts'
entries `(i, j)`. -/
lemma reduceSumParts_entry {m n : ℕ} {parts : List (List (List α))}
    (h : ∀ p ∈ parts, IsMat m n p) (i j : ℕ) (hi : i < m) (hj : j < n) :
    (((reduceSumParts parts).getD i []).getD j 0)
      = (parts.map (fun p => (p.getD i []).getD j 0)).sum := by
  cases parts with
  | nil => simp [reduceSumParts]
  | cons p ps =>
    have := foldl_addMat_entry ps p (h p (List.mem_cons_self _ _))
      (fun q hq => h q (List.mem_cons_of_mem p hq)) i j hi hj
    simpa [reduceSumParts] using this

end ShapeLemmas

lemma getD_mem_of_lt {β : Type} (l : List β) (i : ℕ) (d : β)
    (hi : i < l.length) : l.getD i d ∈ l := by
  rw [List.getD_eq_getElem l d hi]
  exact List.getElem_mem hi

lemma vpeLocalForward_row (vocabStart vocabEnd : ℤ) (embDim : ℕ)
    (weight : List (List α)) (ids : List ℤ) (i : ℕ) (hi : i < ids.length) :
    (vpeLocalForward vocabStart vocabEnd embDim weight ids).getD i []
      = if ids.getD i 0 < vocabStart ∨ vocabEnd ≤ ids.getD i 0
        then List.replicate embDim 0
        else weight.getD (ids.getD i 0 - vocabStart).toNat [] := by
  unfold vpeLocalForward
  rw [getD_map_of_lt _ ids i 0 [] hi]
  by_cases hmask : ids.getD i 0 < vocabStart ∨ vocabEnd ≤ ids.getD i 0
  · simp only [if_pos hmask]
  · simp only [if_neg hmask]

lemma vpeLocalForward_isMat (vocabStart vocabEnd : ℤ) (embDim : ℕ)
    (weight : List (List α)) (ids : List ℤ)
    (hlen : weight.length = (vocabEnd - vocabStart).toNat)
    (hrows : ∀ row ∈ weight, row.length = embDim) :
    IsMat ids.length embDim
      (vpeLocalForward vocabStart vocabEnd embDim weight ids) := by
  constructor
  · simp [vpeLocalForward]
  · intro i hi
    rw [vpeLocalForward_row vocabStart vocabEnd embDim weight ids i hi]
    by_cases hmask : ids.getD i 0 < vocabStart ∨ vocabEnd ≤ ids.getD i 0
    · rw [if_pos hmask]
      exact List.length_replicate _ _
    · rw [if_neg hmask]
      push_neg at hmask
      have hidx : (ids.getD i 0 - vocabStart).toNat < weight.length := by
        rw [hlen]; omega
      exact hrows _ (getD_mem_of_lt weight _ [] hidx)

/-- C3: in `VocabParallelEmbedding.forward`, the pre-reduction local output
row for an owned token id is the shard row `weight[id - vocab_start_index]`,
the row for every out-of-range id is all-zero, the returned tensor is the
element-wise summation-reduction of the per-rank local outputs, and its
shape is `ids.length × embedding_dim`. -/
theorem vocab_parallel_embedding_forward
    (ranks : List ((ℤ × ℤ) × List (List ℚ))) (embDim : ℕ) (ids : List ℤ)
    (hshard : ∀ rk ∈ ranks, rk.2.length = (rk.1.2 - rk.1.1).toNat
      ∧ ∀ row ∈ rk.2, row.length = embDim) :
    (∀ rk ∈ ranks, ∀ i, i < ids.length →
      ((rk.1.1 ≤ ids.getD i 0 ∧ ids.getD i 0 < rk.1.2 →
         (vpeLocalForward rk.1.1 rk.1.2 embDim rk.2 ids).getD i []
           = rk.2.getD (ids.getD i 0 - rk.1.1).toNat [])
       ∧ (ids.getD i 0 < rk.1.1 ∨ rk.1.2 ≤ ids.getD i 0 →
         (vpeLocalForward rk.1.1 rk.1.2 embDim rk.2 ids).getD i []
           = List.replicate embDim 0)))
    ∧ (∀ i j, i < ids.length → j < embDim →
        ((vpeForward ranks embDim ids).getD i []).getD j 0
          = (ranks.map (fun rk =>
              ((vpeLocalForward rk.1.1 rk.1.2 embDim rk.2 ids).getD i []).getD
                j 0)).sum)
    ∧ (ranks ≠ [] →
        (vpeForward ranks embDim ids).length = ids.length
        ∧ ∀ i, i < ids.length →
            ((vpeForward ranks embDim ids).getD i []).length = embDim) := by
  have hmats : ∀ p ∈ ranks.map
      (fun rk => vpeLocalForward rk.1.1 rk.1.2 embDim rk.2 ids),
      IsMat ids.length embDim p := by
    intro p hp
    obtain ⟨rk, hrk, rfl⟩ := List.mem_map.mp hp
    exact vpeLocalForward_isMat rk.1.1 rk.1.2 embDim rk.2 ids
      (hshard rk hrk).1 (hshard rk hrk).2
  refine ⟨?_, ?_, ?_⟩
  · intro rk _hrk i hi
    rw [vpeLocalForward_row rk.1.1 rk.1.2 embDim rk.2 ids i hi]
    constructor
    · intro howned
      rw [if_neg (by omega)]
    · intro hout
      rw [if_pos hout]
  · intro i j hi hj
    unfold vpeForward
    rw [reduceSumParts_entry hmats i j hi hj, List.map_map]
    rfl
  · intro hne
    have hmapne : ranks.map
        (fun rk => vpeLocalForward rk.1.1 rk.1.2 embDim rk.2 ids) ≠ [] := by
      simpa using hne
    have h := reduceSumParts_isMat hmapne hmats
    exact ⟨h.1, h.2⟩

/-- Witness for `vocab_parallel_embedding_forward`: two ranks each owning
two of four vocabulary entries, embedding dimension one. -/
theorem vocab_parallel_embedding_forward_witness :
    (∀ rk ∈ ([(((0 : ℤ), (2 : ℤ)), [[(1 : ℚ)], [2]]),
              (((2 : ℤ), (4 : ℤ)), [[3], [4]])] :
        List ((ℤ × ℤ) × List (List ℚ))),
      rk.2.length = (rk.1.2 - rk.1.1).toNat ∧ ∀ row ∈ rk.2, row.length = 1)
    ∧ ((∀ rk ∈ ([(((0 : ℤ), (2 : ℤ)), [[(1 : ℚ)], [2]]),
                 (((2 : ℤ), (4 : ℤ)), [[3], [4]])] :
          List ((ℤ × ℤ) × List (List ℚ))),
        ∀ i, i < ([(1 : ℤ), 3, 9] : List ℤ).length →
        ((rk.1.1 ≤ ([(1 : ℤ), 3, 9] : List ℤ).getD i 0
            ∧ ([(1 : ℤ), 3, 9] : List ℤ).getD i 0 < rk.1.2 →
           (vpeLocalForward rk.1.1 rk.1.2 1 rk.2 [(1 : ℤ), 3, 9]).getD i []
             = rk.2.getD (([(1 : ℤ), 3, 9] : List ℤ).getD i 0 - rk.1.1).toNat [])
         ∧ (([(1 : ℤ), 3, 9] : List ℤ).getD i 0 < rk.1.1
             ∨ rk.1.2 ≤ ([(1 : ℤ), 3, 9] : List ℤ).getD i 0 →
           (vpeLocalForward rk.1.1 rk.1.2 1 rk.2 [(1 : ℤ), 3, 9]).getD i []
             = List.replicate 1 0)))
      ∧ (∀ i j, i < ([(1 : ℤ), 3, 9] : List ℤ).length → j < 1 →
          ((vpeForward [(((0 : ℤ), (2 : ℤ)), [[(1 : ℚ)], [2]]),
              (((2 : ℤ), (4 : ℤ)), [[3], [4]])] 1 [(1 : ℤ), 3, 9]).getD i []).getD j 0
            = (([(((0 : ℤ), (2 : ℤ)), [[(1 : ℚ)], [2]]),
                 (((2 : ℤ), (4 : ℤ)), [[3], [4]])] :
                List ((ℤ × ℤ) × List (List ℚ))).map (fun rk =>
                ((vpeLocalForward rk.1.1 rk.1.2 1 rk.2 [(1 : ℤ), 3, 9]).getD i []).getD
                  j 0)).sum)
      ∧ (([(((0 : ℤ), (2 : ℤ)), [[(1 : ℚ)], [2]]),
           (((2 : ℤ), (4 : ℤ)), [[3], [4]])] :
            List ((ℤ × ℤ) × List (List ℚ))) ≠ [] →
          (vpeForward [(((0 : ℤ), (2 : ℤ)), [[(1 : ℚ)], [2]]),
              (((2 : ℤ), (4 : ℤ)), [[3], [4]])] 1 [(1 : ℤ), 3, 9]).length
            = ([(1 : ℤ), 3, 9] : List ℤ).length
          ∧ ∀ i, i < ([(1 : ℤ), 3, 9] : List ℤ).length →
              ((vpeForward [(((0 : ℤ), (2 : ℤ)), [[(1 : ℚ)], [2]]),
                  (((2 : ℤ), (4 : ℤ)), [[3], [4]])] 1 [(1 : ℤ), 3, 9]).getD i []).length
                = 1)) :=
  ⟨by decide,
   vocab_parallel_embedding_forward
     [(((0 : ℤ), (2 : ℤ)), [[(1 : ℚ)], [2]]), (((2 : ℤ), (4 : ℤ)), [[3], [4]])]
     1 [(1 : ℤ), 3, 9] (by decide)⟩

/-- `RowParallelLinear.forward` (layers.py:300-314) on the per-rank input
slices (`input_is_parallel=True`): each rank computes
`F.linear(input_parallel, weight)` with no bias, the partial products are
summation-reduced, and the full-size bias is added exactly once after the
reduction when configured. -/
def rowParallelForwardMulti (shards : List (List (List α)))
    (bias : Option (List α)) (xParts : List (List (List α))) :
    List (List α) :=
  let output_parallel := List.zipWith (fun xr wr => linearNoBias xr wr)
    xParts shards
  let output_ := reduceSumParts output_parallel
  match bias with
  | none => output_
  | some bv => output_.map (fun row => List.zipWith (· + ·) row bv)

/-- `RowParallelLinear.forward` with `input_is_parallel=False`: the input is
first scatter-split along its last dimension (layers.py:302-305). -/
def rowParallelForward (world p : ℕ) (shards : List (List (List α)))
    (bias : Option (List α)) (x : List (List α)) : List (List α) :=
  rowParallelForwardMulti shards bias (scatterSplitLastDim world p x)

section ChunkLemmas

lemma dotProd_append (a b c d : List α) (h : a.length = c.length) :
    dotProd (a ++ b) (c ++ d) = dotProd a c + dotProd b d := by
  unfold dotProd
  rw [List.zipWith_append _ _ _ _ _ h, List.sum_append]

/-- A dot product of vectors of length `n * p` is the sum of the dot
products of their `n` contiguous width-`p` chunks. -/
lemma dotProd_chunks (p : ℕ) :
    ∀ (n : ℕ) (xs ws : List α), xs.length = n * p → ws.length = n * p →
    dotProd xs ws
      = ((List.range n).map (fun r =>
          dotProd ((xs.drop (r * p)).take p) ((ws.drop (r * p)).take p))).sum := by
  intro n
  induction n with
  | zero =>
    intro xs ws hx hw
    have hx0 : xs = [] := List.eq_nil_of_length_eq_zero (by simpa using hx)
    have hw0 : ws = [] := List.eq_nil_of_length_eq_zero (by simpa using hw)
    subst hx0; subst hw0
    simp [dotProd]
  | succ n ih =>
    intro xs ws hx hw
    have hxp : (xs.take p).length = p := by
      rw [List.length_take]
      have : p ≤ xs.length := by rw [hx]; nlinarith
      omega
    have hwp : (ws.take p).length = p := by
      rw [List.length_take]
      have : p ≤ ws.length := by rw [hw]; nlinarith
      omega
    have hsplit : dotProd xs ws = dotProd (xs.take p) (ws.take p)
        + dotProd (xs.drop p) (ws.drop p) := by
      conv_lhs => rw [← List.take_append_drop p xs, ← List.take_append_drop p ws]
      rw [dotProd_append _ _ _ _ (by rw [hxp, hwp])]
    have hxd : (xs.drop p).length = n * p := by
      rw [List.length_drop, hx]; ring_nf; omega
    have hwd : (ws.drop p).length = n * p := by
      rw [List.length_drop, hw]; ring_nf; omega
    rw [hsplit, ih (xs.drop p) (ws.drop p) hxd hwd, List.range_succ_eq_map]
    simp only [List.map_cons, List.sum_cons, List.map_map]
    congr 1
    · simp
    · apply congrArg
      apply List.map_congr_left
      intro r _
      simp only [Function.comp_apply, List.drop_drop, Nat.succ_mul]
      rw [Nat.add_comm p (r * p)]

end ChunkLemmas

section MatLemmas

lemma linearNoBias_isMat (x w : List (List α)) :
    IsMat x.length w.length (linearNoBias x w) := by
  constructor
  · simp [linearNoBias]
  · intro i hi
    unfold linearNoBias
    rw [getD_map_of_lt _ x i [] [] hi]
    simp

lemma linearNoBias_entry (x w : List (List α)) (i j : ℕ)
    (hi : i < x.length) (hj : j < w.length) :
    ((linearNoBias x w).getD i []).getD j 0
      = dotProd (x.getD i []) (w.getD j []) := by
  unfold linearNoBias
  rw [getD_map_of_lt _ x i [] [] hi, getD_map_of_lt _ w j [] 0 hj]

lemma mat_eq_of_entries {a b : List (List α)} (m n : ℕ)
    (ha : IsMat m n a) (hb : IsMat m n b)
    (h : ∀ i j, i < m → j < n →
      (a.getD i []).getD j 0 = (b.getD i []).getD j 0) : a = b := by
  apply List.ext_getElem (by rw [ha.1, hb.1])
  intro i h1 h2
  have hi : i < m := by rw [← ha.1]; exact h1
  have hra : a[i] = a.getD i [] := (List.getD_eq_getElem a [] h1).symm
  have hrb : b[i] = b.getD i [] := (List.getD_eq_getElem b [] h2).symm
  apply List.ext_getElem
    (by rw [hra, hrb, ha.2 i hi, hb.2 i hi])
  intro j hj1 hj2
  have hj : j < n := by
    rw [hra, ha.2 i hi] at hj1; exact hj1
  have := h i j hi hj
  rw [← List.getD_eq_getElem a[i] 0 hj1, ← List.getD_eq_getElem b[i] 0 hj2,
    hra, hrb]
  exact this

omit [LinearOrderedField α] in
lemma scatterSplitLastDim_getD (world p : ℕ) (x : List (List α)) (r : ℕ)
    (hr : r < world) :
    (scatterSplitLastDim world p x).getD r []
      = x.map (fun row => (row.drop (r * p)).take p) := by
  unfold scatterSplitLastDim
  rw [getD_map_of_lt _ (List.range world) r 0 [] (by simpa using hr)]
  have hR : (List.range world).getD r 0 = r := by
    rw [List.getD_eq_getElem _ 0 (by simpa using hr)]
    simp
  rw [hR]

end MatLemmas

section RowParallel

variable (world p : ℕ) (W x : List (List α))

lemma rowParallel_locals_eq :
    List.zipWith (fun xr wr => linearNoBias xr wr)
        (scatterSplitLastDim world p x) (scatterSplitLastDim world p W)
      = (List.range world).map (fun r =>
          linearNoBias (x.map (fun row => (row.drop (r * p)).take p))
            (W.map (fun row => (row.drop (r * p)).take p))) := by
  unfold scatterSplitLastDim
  rw [List.zipWith_map, List.zipWith_same]

lemma rowParallel_locals_isMat :
    ∀ q ∈ (List.range world).map (fun r =>
        linearNoBias (x.map (fun row => (row.drop (r * p)).take p))
          (W.map (fun row => (row.drop (r * p)).take p))),
      IsMat x.length W.length q := by
  intro q hq
  obtain ⟨r, _, rfl⟩ := List.mem_map.mp hq
  have := linearNoBias_isMat (x.map (fun row => (row.drop (r * p)).take p))
    (W.map (fun row => (row.drop (r * p)).take p))
  simpa using this

lemma rowParallel_noBias_eq (hworld : 0 < world)
    (hW : ∀ row ∈ W, row.length = world * p)
    (hx : ∀ row ∈ x, row.length = world * p) :
    rowParallelForwardMulti (scatterSplitLastDim world p W) none
        (scatterSplitLastDim world p x)
      = linearNoBias x W := by
  have hdef : rowParallelForwardMulti (scatterSplitLastDim world p W) none
      (scatterSplitLastDim world p x)
      = reduceSumParts (List.zipWith (fun xr wr => linearNoBias xr wr)
          (scatterSplitLastDim world p x) (scatterSplitLastDim world p W)) := rfl
  have hne : ((List.range world).map (fun r =>
      linearNoBias (x.map (fun row => (row.drop (r * p)).take p))
        (W.map (fun row => (row.drop (r * p)).take p)))) ≠ [] :=
    List.length_pos.mp (by simpa using hworld)
  have ha : IsMat x.length W.length
      (rowParallelForwardMulti (scatterSplitLastDim world p W) none
        (scatterSplitLastDim world p x)) := by
    rw [hdef, rowParallel_locals_eq]
    exact reduceSumParts_isMat hne (rowParallel_locals_isMat world p W x)
  refine mat_eq_of_entries x.length W.length ha (linearNoBias_isMat x W) ?_
  intro i j hi hj
  rw [hdef, rowParallel_locals_eq,
    reduceSumParts_entry (rowParallel_locals_isMat world p W x) i j hi hj,
    List.map_map, linearNoBias_entry x W i j hi hj,
    dotProd_chunks p world (x.getD i []) (W.getD j [])
      (hx _ (getD_mem_of_lt x i [] hi)) (hW _ (getD_mem_of_lt W j [] hj))]
  apply congrArg
  apply List.map_congr_left
  intro r _
  simp only [Function.comp_apply]
  rw [linearNoBias_entry _ _ i j (by simpa using hi) (by simpa using hj),
    getD_map_of_lt _ x i [] [] hi, getD_map_of_lt _ W j [] [] hj]

end RowParallel

/-- C4: `RowParallelLinear.forward` computes the per-rank partial products
`x_shard @ weight_shard^T` with no bias, summation-reduces them across
ranks, and adds the full unsharded bias exactly once after the reduction,
so the result equals the non-partitioned `x @ W^T + b`. -/
theorem row_parallel_linear_forward
    (world p : ℕ) (W : List (List ℚ)) (b : List ℚ) (x : List (List ℚ))
    (hworld : 0 < world)
    (hW : ∀ row ∈ W, row.length = world * p)
    (hx : ∀ row ∈ x, row.length = world * p) :
    (rowParallelForwardMulti (scatterSplitLastDim world p W) none
        (scatterSplitLastDim world p x)
      = linearNoBias x W)
    ∧ rowParallelForward world p (scatterSplitLastDim world p W) (some b) x
      = (linearNoBias x W).map (fun row => List.zipWith (· + ·) row b)
    ∧ rowParallelForward world p (scatterSplitLastDim world p W) (some b) x
      = linearB x W (some b) := by
  have hcore := rowParallel_noBias_eq world p W x hworld hW hx
  have hsome : rowParallelForward world p (scatterSplitLastDim world p W)
      (some b) x
      = (rowParallelForwardMulti (scatterSplitLastDim world p W) none
          (scatterSplitLastDim world p x)).map
            (fun row => List.zipWith (· + ·) row b) := rfl
  refine ⟨hcore, ?_, ?_⟩
  · rw [hsome, hcore]
  · rw [hsome, hcore]; rfl

/-- Witness for `row_parallel_linear_forward`: two ranks, one input feature
per rank. -/
theorem row_parallel_linear_forward_witness :
    (0 < 2 ∧ (∀ row ∈ ([[(1 : ℚ), 2]] : List (List ℚ)), row.length = 2 * 1)
      ∧ (∀ row ∈ ([[(3 : ℚ), 4]] : List (List ℚ)), row.length = 2 * 1))
    ∧ ((rowParallelForwardMulti (scatterSplitLastDim 2 1 [[(1 : ℚ), 2]]) none
          (scatterSplitLastDim 2 1 [[(3 : ℚ), 4]])
        = linearNoBias [[(3 : ℚ), 4]] [[(1 : ℚ), 2]])
      ∧ rowParallelForward 2 1 (scatterSplitLastDim 2 1 [[(1 : ℚ), 2]])
          (some [(5 : ℚ)]) [[(3 : ℚ), 4]]
        = (linearNoBias [[(3 : ℚ), 4]] [[(1 : ℚ), 2]]).map
            (fun row => List.zipWith (· + ·) row [(5 : ℚ)])
      ∧ rowParallelForward 2 1 (scatterSplitLastDim 2 1 [[(1 : ℚ), 2]])
          (some [(5 : ℚ)]) [[(3 : ℚ), 4]]
        = linearB [[(3 : ℚ), 4]] [[(1 : ℚ), 2]] (some [(5 : ℚ)])) :=
  ⟨⟨by decide, by decide, by decide⟩,
   row_parallel_linear_forward 2 1 [[(1 : ℚ), 2]] [(5 : ℚ)] [[(3 : ℚ), 4]]
     (by decide) (by decide) (by decide)⟩

/-- `ColumnParallelLinear.forward` with `gather_output=False`
(layers.py:227-237): `copy_to_model_parallel_region` is the identity in the
forward direction, then `F.linear(input_parallel, weight, bias)` on the
local shard, returned without gathering. -/
def columnParallelLocalForward (weight : List (List α))
    (bias : Option (List α)) (x : List (List α)) : List (List α) :=
  linearB x weight bias

/-- The local output of a column-sharded linear layer is the corresponding
row-block slice of the dense layer's output. -/
lemma colLocal_slice (A : List (List α)) (bA : Option (List α))
    (x : List (List α)) (q r : ℕ) :
    columnParallelLocalForward ((A.drop (r * q)).take q)
        (bA.map (fun bv => (bv.drop (r * q)).take q)) x
      = (linearB x A bA).map (fun row => (row.drop (r * q)).take q) := by
  cases bA with
  | none =>
    unfold columnParallelLocalForward linearB linearNoBias Option.map
    rw [List.map_map]
    apply List.map_congr_left
    intro xi _
    simp only [Function.comp_apply]
    rw [← List.map_drop, ← List.map_take]
  | some bv =>
    unfold columnParallelLocalForward linearB linearNoBias Option.map
    simp only [List.map_map]
    apply List.map_congr_left
    intro xi _
    simp only [Function.comp_apply]
    rw [List.drop_zipWith, List.take_zipWith, ← List.map_drop, ← List.map_take]

/-- C5: feeding a `ColumnParallelLinear` with `gather_output=False` directly
into a `RowParallelLinear` with `input_is_parallel=True` over any world size
whose partitions divide the dimensions produces, in exact arithmetic, the
same result as composing the two corresponding non-partitioned dense
layers. -/
theorem column_row_fusion
    (world q : ℕ) (A : List (List ℚ)) (bA : Option (List ℚ))
    (B : List (List ℚ)) (bB : Option (List ℚ)) (x : List (List ℚ))
    (hworld : 0 < world)
    (hA : A.length = world * q)
    (hbA : ∀ bv, bA = some bv → bv.length = world * q)
    (hB : ∀ row ∈ B, row.length = world * q) :
    rowParallelForwardMulti (scatterSplitLastDim world q B) bB
        ((List.range world).map (fun r =>
          columnParallelLocalForward ((A.drop (r * q)).take q)
            (bA.map (fun bv => (bv.drop (r * q)).take q)) x))
      = linearB (linearB x A bA) B bB := by
  have hU : ∀ row ∈ linearB x A bA, row.length = world * q := by
    intro row hrow
    cases bA with
    | none =>
      unfold linearB linearNoBias at hrow
      obtain ⟨xi, _, rfl⟩ := List.mem_map.mp hrow
      simp [hA]
    | some bv =>
      unfold linearB at hrow
      obtain ⟨row0, hrow0, rfl⟩ := List.mem_map.mp hrow
      unfold linearNoBias at hrow0
      obtain ⟨xi, _, rfl⟩ := List.mem_map.mp hrow0
      simp [hA, hbA bv rfl]
  have hpipe : (List.range world).map (fun r =>
      columnParallelLocalForward ((A.drop (r * q)).take q)
        (bA.map (fun bv => (bv.drop (r * q)).take q)) x)
      = scatterSplitLastDim world q (linearB x A bA) := by
    unfold scatterSplitLastDim
    apply List.map_congr_left
    intro r _
    exact colLocal_slice A bA x q r
  rw [hpipe]
  cases bB with
  | none => exact rowParallel_noBias_eq world q B (linearB x A bA) hworld hB hU
  | some bv2 =>
    have hsome : rowParallelForwardMulti (scatterSplitLastDim world q B)
        (some bv2) (scatterSplitLastDim world q (linearB x A bA))
        = (rowParallelForwardMulti (scatterSplitLastDim world q B) none
            (scatterSplitLastDim world q (linearB x A bA))).map
              (fun row => List.zipWith (· + ·) row bv2) := rfl
    rw [hsome, rowParallel_noBias_eq world q B (linearB x A bA) hworld hB hU]
    rfl

/-- Witness for `column_row_fusion`: two ranks, a 2-to-2-to-1 network with
both biases present. -/
theorem column_row_fusion_witness :
    (0 < 2 ∧ ([[(1 : ℚ), 0], [0, 1]] : List (List ℚ)).length = 2 * 1
      ∧ (∀ bv, (some [(1 : ℚ), 2] : Option (List ℚ)) = some bv →
          bv.length = 2 * 1)
      ∧ (∀ row ∈ ([[(1 : ℚ), 1]] : List (List ℚ)), row.length = 2 * 1))
    ∧ rowParallelForwardMulti (scatterSplitLastDim 2 1 [[(1 : ℚ), 1]])
        (some [(3 : ℚ)])
        ((List.range 2).map (fun r =>
          columnParallelLocalForward
            ((([[(1 : ℚ), 0], [0, 1]] : List (List ℚ)).drop (r * 1)).take 1)
            ((some [(1 : ℚ), 2] : Option (List ℚ)).map
              (fun bv => (bv.drop (r * 1)).take 1)) [[(5 : ℚ), 7]]))
      = linearB (linearB [[(5 : ℚ), 7]] [[(1 : ℚ), 0], [0, 1]]
          (some [(1 : ℚ), 2])) [[(1 : ℚ), 1]] (some [(3 : ℚ)]) :=
  ⟨⟨by decide, by decide, fun bv h => by injection h with h'; rw [← h']; decide,
    by decide⟩,
   column_row_fusion 2 1 [[(1 : ℚ), 0], [0, 1]] (some [(1 : ℚ), 2])
     [[(1 : ℚ), 1]] (some [(3 : ℚ)]) [[(5 : ℚ), 7]]
     (by decide) (by decide)
     (fun bv h => by injection h with h'; rw [← h']; decide)
     (by decide)⟩

/-- C6: for every `world_size` evenly dividing `global_size`,
`vocab_range_from_global_vocab_size` returns
`[rank*per_partition, (rank+1)*per_partition)` with
`per_partition = global_size / world_size`, and these ranges tile
`[0, global_size)` with no gaps and no overlaps. -/
theorem vocab_range_partition_tiles
    (g w : ℕ) (_hw : 0 < w) (hdvd : w ∣ g) :
    (∀ r, r < w → VocabUtility.vocab_range_from_global_vocab_size g r w
        = some (r * (g / w), (r + 1) * (g / w)))
    ∧ (∀ k, k < g ↔ ∃ r, r < w ∧ r * (g / w) ≤ k ∧ k < (r + 1) * (g / w))
    ∧ (∀ r1 r2 k, r1 < w → r2 < w →
        r1 * (g / w) ≤ k → k < (r1 + 1) * (g / w) →
        r2 * (g / w) ≤ k → k < (r2 + 1) * (g / w) → r1 = r2) := by
  have hmod : g % w = 0 := Nat.mod_eq_zero_of_dvd hdvd
  have hg : g = w * (g / w) := by
    rw [Nat.mul_comm]
    exact (Nat.div_mul_cancel hdvd).symm
  refine ⟨?_, ?_, ?_⟩
  · intro r _
    simp [VocabUtility.vocab_range_from_global_vocab_size,
      VocabUtility.divide, VocabUtility.vocab_range_from_per_partition_vocab_size,
      hmod]
  · intro k
    constructor
    · intro hk
      rcases Nat.eq_zero_or_pos (g / w) with hper | hper
      · rw [hg, hper, Nat.mul_zero] at hk
        exact absurd hk (Nat.not_lt_zero k)
      · refine ⟨k / (g / w), ?_, ?_, ?_⟩
        · rw [Nat.div_lt_iff_lt_mul hper]
          calc k < g := hk
          _ = w * (g / w) := hg
        · exact Nat.div_mul_le_self k (g / w)
        · have hdm := Nat.div_add_mod k (g / w)
          have hmlt := Nat.mod_lt k hper
          calc k = (g / w) * (k / (g / w)) + k % (g / w) := hdm.symm
          _ < (g / w) * (k / (g / w)) + (g / w) := by omega
          _ = (k / (g / w) + 1) * (g / w) := by ring
    · rintro ⟨r, hr, _, hk2⟩
      have hle : (r + 1) * (g / w) ≤ w * (g / w) :=
        Nat.mul_le_mul_right (g / w) hr
      calc k < (r + 1) * (g / w) := hk2
      _ ≤ w * (g / w) := hle
      _ = g := hg.symm
  · intro r1 r2 k _ _ hlo1 hhi1 hlo2 hhi2
    have h1 : k / (g / w) = r1 := Nat.div_eq_of_lt_le hlo1 hhi1
    have h2 : k / (g / w) = r2 := Nat.div_eq_of_lt_le hlo2 hhi2
    omega

/-- Witness for `vocab_range_partition_tiles` at `global_size = 8`,
`world_size = 2`. -/
theorem vocab_range_partition_tiles_witness :
    (0 < 2 ∧ (2 : ℕ) ∣ 8)
    ∧ ((∀ r, r < 2 → VocabUtility.vocab_range_from_global_vocab_size 8 r 2
          = some (r * (8 / 2), (r + 1) * (8 / 2)))
      ∧ (∀ k, k < 8 ↔ ∃ r, r < 2 ∧ r * (8 / 2) ≤ k ∧ k < (r + 1) * (8 / 2))
      ∧ (∀ r1 r2 k, r1 < 2 → r2 < 2 →
          r1 * (8 / 2) ≤ k → k < (r1 + 1) * (8 / 2) →
          r2 * (8 / 2) ≤ k → k < (r2 + 1) * (8 / 2) → r1 = r2)) :=
  ⟨⟨by decide, by decide⟩,
   vocab_range_partition_tiles 8 2 (by decide) (by decide)⟩

/-- `ParallelEmbedding.forward` (layers.py:162-169): broadcast-copy of the
ids (identity in the forward direction), full-vocabulary lookup on each
rank's feature-sharded weight, then concatenation-gather along the feature
dimension. -/
def peForward (shards : List (List (List α))) (ids : List ℤ) :
    List (List α) :=
  gatherConcat1 (shards.map (fun w => ids.map (fun id => w.getD id.toNat [])))

/-- `ColumnParallelLinear.forward` with `gather_output=True`
(layers.py:227-237): each rank's local `F.linear` output concatenated
across ranks along the last dimension. -/
def columnParallelForwardGathered (wShards : List (List (List α)))
    (bShards : List (Option (List α))) (x : List (List α)) :
    List (List α) :=
  gatherConcat1
    (List.zipWith (fun w b => columnParallelLocalForward w b x) wShards bShards)

/-- Reference model written from the spec's words: a single non-partitioned
embedding table lookup. -/
def plainEmbedding (weight : List (List α)) (ids : List ℤ) :
    List (List α) :=
  ids.map (fun id => weight.getD id.toNat [])

/-- Reference model written from the spec's words: a single non-partitioned
margin head over all `numClasses` classes — margin adjustment at the
true-class column of every sample whose label is in `[0, numClasses)`,
everything scaled by `s`. -/
def plainArcface (sqrtFn : α → α) (eps : α) (c : ArcConsts α) (s : α)
    (numClasses : ℕ) (weight : List (List α)) (emb : List (List α))
    (labels : List ℤ) : List (List α) :=
  List.zipWith
    (fun e l => adjustRow sqrtFn c s 0 (numClasses : ℤ) l 0
      (cosRow sqrtFn eps weight e))
    emb labels

/-- C7: with model-parallel world size 1 every sharded component's forward
output equals that of the equivalent single non-partitioned layer on the
same parameters: the vocabulary-sharded embedding (on in-range ids), the
feature-sharded embedding, the column-parallel linear (gathered), the
row-parallel linear (both the pre-split-input and the scattering
configuration), and the margin head over its full class range. -/
theorem world_size_one_equivalence
    (embDim num : ℕ) (Wv : List (List ℚ)) (ids : List ℤ)
    (We : List (List ℚ)) (idsE : List ℤ)
    (Wc : List (List ℚ)) (bc : Option (List ℚ)) (xc : List (List ℚ))
    (p : ℕ) (Wr : List (List ℚ)) (br : Option (List ℚ)) (xr : List (List ℚ))
    (sqrtFn : ℚ → ℚ) (eps s : ℚ) (c : ArcConsts ℚ) (C : ℕ)
    (Wa : List (List ℚ)) (emb : List (List ℚ)) (labels : List ℤ)
    (hids : ∀ id ∈ ids, 0 ≤ id ∧ id < (num : ℤ))
    (hWr : ∀ row ∈ Wr, row.length = 1 * p)
    (hxr : ∀ row ∈ xr, row.length = 1 * p) :
    vpeForward [(((0 : ℤ), (num : ℤ)), Wv)] embDim ids = plainEmbedding Wv ids
    ∧ peForward [We] idsE = plainEmbedding We idsE
    ∧ columnParallelForwardGathered [Wc] [bc] xc = linearB xc Wc bc
    ∧ rowParallelForwardMulti [Wr] br [xr] = linearB xr Wr br
    ∧ rowParallelForward 1 p (scatterSplitLastDim 1 p Wr) br xr
        = linearB xr Wr br
    ∧ arcForward sqrtFn eps c s
        ((VocabUtility.vocab_range_from_per_partition_vocab_size C 0 1).1 : ℤ)
        ((VocabUtility.vocab_range_from_per_partition_vocab_size C 0 1).2 : ℤ)
        Wa [emb] [labels]
      = (plainArcface sqrtFn eps c s C Wa emb labels, labels) := by
  refine ⟨?_, rfl, rfl, ?_, ?_, ?_⟩
  · show vpeLocalForward 0 (num : ℤ) embDim Wv ids = plainEmbedding Wv ids
    unfold vpeLocalForward plainEmbedding
    apply List.map_congr_left
    intro id hid
    have h := hids id hid
    have hmask : ¬(id < (0 : ℤ) ∨ (num : ℤ) ≤ id) := by omega
    simp only [if_neg hmask, Int.sub_zero]
  · cases br with
    | none => rfl
    | some bv => rfl
  · have hcore := rowParallel_noBias_eq 1 p Wr xr Nat.one_pos hWr hxr
    cases br with
    | none => exact hcore
    | some bv =>
      have hsome : rowParallelForward 1 p (scatterSplitLastDim 1 p Wr)
          (some bv) xr
          = (rowParallelForwardMulti (scatterSplitLastDim 1 p Wr) none
              (scatterSplitLastDim 1 p xr)).map
                (fun row => List.zipWith (· + ·) row bv) := rfl
      rw [hsome, hcore]
      rfl
  · have hb1 : ((VocabUtility.vocab_range_from_per_partition_vocab_size
        C 0 1).1 : ℤ) = 0 := by
      simp [VocabUtility.vocab_range_from_per_partition_vocab_size]
    have hb2 : ((VocabUtility.vocab_range_from_per_partition_vocab_size
        C 0 1).2 : ℤ) = (C : ℤ) := by
      simp [VocabUtility.vocab_range_from_per_partition_vocab_size]
    rw [hb1, hb2]
    unfold arcForward plainArcface
    simp [gatherConcat0]

/-- Witness for `world_size_one_equivalence` at concrete one-element
instances of every component. -/
theorem world_size_one_equivalence_witness :
    ((∀ id ∈ ([(0 : ℤ)] : List ℤ), 0 ≤ id ∧ id < ((1 : ℕ) : ℤ))
      ∧ (∀ row ∈ ([[(1 : ℚ)]] : List (List ℚ)), row.length = 1 * 1)
      ∧ (∀ row ∈ ([[(2 : ℚ)]] : List (List ℚ)), row.length = 1 * 1))
    ∧ (vpeForward [(((0 : ℤ), ((1 : ℕ) : ℤ)), [[(3 : ℚ)]])] 1 [(0 : ℤ)]
        = plainEmbedding [[(3 : ℚ)]] [(0 : ℤ)]
      ∧ peForward [[[(4 : ℚ)]]] [(0 : ℤ)]
        = plainEmbedding [[(4 : ℚ)]] [(0 : ℤ)]
      ∧ columnParallelForwardGathered [[[(5 : ℚ)]]] [(none : Option (List ℚ))]
          [[(6 : ℚ)]]
        = linearB [[(6 : ℚ)]] [[(5 : ℚ)]] none
      ∧ rowParallelForwardMulti [[[(1 : ℚ)]]] (none : Option (List ℚ))
          [[[(2 : ℚ)]]]
        = linearB [[(2 : ℚ)]] [[(1 : ℚ)]] none
      ∧ rowParallelForward 1 1 (scatterSplitLastDim 1 1 [[(1 : ℚ)]])
          (none : Option (List ℚ)) [[(2 : ℚ)]]
        = linearB [[(2 : ℚ)]] [[(1 : ℚ)]] none
      ∧ arcForward (fun x => x) 1 ⟨1, 0, 0, (-2)⟩ 1
          ((VocabUtility.vocab_range_from_per_partition_vocab_size 1 0 1).1 : ℤ)
          ((VocabUtility.vocab_range_from_per_partition_vocab_size 1 0 1).2 : ℤ)
          [[(7 : ℚ)]] [[[(8 : ℚ)]]] [[(0 : ℤ)]]
        = (plainArcface (fun x => x) 1 ⟨1, 0, 0, (-2)⟩ 1 1 [[(7 : ℚ)]]
            [[(8 : ℚ)]] [(0 : ℤ)], [(0 : ℤ)])) :=
  ⟨⟨by decide, by decide, by decide⟩,
   world_size_one_equivalence 1 1 [[(3 : ℚ)]] [(0 : ℤ)] [[(4 : ℚ)]] [(0 : ℤ)]
     [[(5 : ℚ)]] none [[(6 : ℚ)]] 1 [[(1 : ℚ)]] none [[(2 : ℚ)]]
     (fun x => x) 1 1 ⟨1, 0, 0, (-2)⟩ 1 [[(7 : ℚ)]] [[(8 : ℚ)]] [(0 : ℤ)]
     (by decide) (by decide) (by decide)⟩

/-! State-threading models for the purity claim: each layer record holds
exactly the state its `__init__` retains (owned parameters, partition
bounds, margin buffers).  Every `forward` in layers.py reads `self.*` but
never assigns a `self` field — the in-place tensor writes (`masked_input[..]`,
`output_parallel[..]`, `cos_theta[..]`, `cos_theta *= s`) all target
tensors freshly created inside the call — so each `forwardSt` returns its
layer record unchanged, with the other ranks' contributions to the
collectives passed as an environment argument. -/

/-- `VocabParallelEmbedding` persistent state (layers.py:74-102). -/
structure VocabParallelEmbeddingLayer (α : Type) where
  vocab_start_index : ℤ
  vocab_end_index : ℤ
  embedding_dim : ℕ
  weight : List (List α)

/-- `VocabParallelEmbedding.forward` with explicit state threading. -/
def VocabParallelEmbeddingLayer.forwardSt
    (st : VocabParallelEmbeddingLayer α)
    (otherParts : List (List (List α))) (ids : List ℤ) :
    List (List α) × VocabParallelEmbeddingLayer α :=
  (reduceSumParts
    (vpeLocalForward st.vocab_start_index st.vocab_end_index
      st.embedding_dim st.weight ids :: otherParts), st)

/-- `ParallelEmbedding` persistent state (layers.py:133-160). -/
structure ParallelEmbeddingLayer (α : Type) where
  weight : List (List α)

/-- `ParallelEmbedding.forward` with explicit state threading. -/
def ParallelEmbeddingLayer.forwardSt (st : ParallelEmbeddingLayer α)
    (otherParts : List (List (List α))) (ids : List ℤ) :
    List (List α) × ParallelEmbeddingLayer α :=
  (gatherConcat1
    (ids.map (fun id => st.weight.getD id.toNat []) :: otherParts), st)

/-- `ColumnParallelLinear` persistent state (layers.py:192-225). -/
structure ColumnParallelLinearLayer (α : Type) where
  weight : List (List α)
  bias : Option (List α)
  gather_output : Bool

/-- `ColumnParallelLinear.forward` with explicit state threading. -/
def ColumnParallelLinearLayer.forwardSt (st : ColumnParallelLinearLayer α)
    (otherParts : List (List (List α))) (x : List (List α)) :
    List (List α) × ColumnParallelLinearLayer α :=
  ((if st.gather_output then
      gatherConcat1 (columnParallelLocalForward st.weight st.bias x
        :: otherParts)
    else columnParallelLocalForward st.weight st.bias x), st)

/-- `RowParallelLinear` persistent state (layers.py:266-298). -/
structure RowParallelLinearLayer (α : Type) where
  weight : List (List α)
  bias : Option (List α)
  input_is_parallel : Bool
  rank : ℕ
  input_size_per_partition : ℕ

/-- `RowParallelLinear.forward` with explicit state threading. -/
def RowParallelLinearLayer.forwardSt (st : RowParallelLinearLayer α)
    (otherParts : List (List (List α))) (x : List (List α)) :
    List (List α) × RowParallelLinearLayer α :=
  let input_parallel := if st.input_is_parallel then x
    else x.map (fun row =>
      (row.drop (st.rank * st.input_size_per_partition)).take
        st.input_size_per_partition)
  let output_parallel := linearNoBias input_parallel st.weight
  let output_ := reduceSumParts (output_parallel :: otherParts)
  ((match st.bias with
    | none => output_
    | some bv => output_.map (fun row => List.zipWith (· + ·) row bv)), st)

/-- `ArcfaceColumnParallelLinear` persistent state (layers.py:336-387):
weight shard, margin buffers, scale, and class range. -/
structure ArcfaceColumnParallelLinearLayer (α : Type) where
  weight : List (List α)
  consts : ArcConsts α
  scalar : α
  vocab_start_index : ℤ
  vocab_end_index : ℤ

/-- `ArcfaceColumnParallelLinear.forward` with explicit state threading. -/
def ArcfaceColumnParallelLinearLayer.forwardSt
    (st : ArcfaceColumnParallelLinearLayer α) (sqrtFn : α → α) (eps : α)
    (embParts : List (List (List α))) (labelParts : List (List ℤ)) :
    (List (List α) × List ℤ) × ArcfaceColumnParallelLinearLayer α :=
  (arcForward sqrtFn eps st.consts st.scalar st.vocab_start_index
    st.vocab_end_index st.weight embParts labelParts, st)

/-- C8: no forward pass mutates its layer's state (weights, bias, margin
buffers), so running any layer's forward twice on identical inputs with no
intervening parameter update yields identical outputs and leaves the layer
state equal to the initial one. -/
theorem forward_pure_idempotent :
    (∀ (st : VocabParallelEmbeddingLayer ℚ)
        (env : List (List (List ℚ))) (ids : List ℤ),
      (st.forwardSt env ids).2 = st
      ∧ ((st.forwardSt env ids).2.forwardSt env ids).1
          = (st.forwardSt env ids).1)
    ∧ (∀ (st : ParallelEmbeddingLayer ℚ)
        (env : List (List (List ℚ))) (ids : List ℤ),
      (st.forwardSt env ids).2 = st
      ∧ ((st.forwardSt env ids).2.forwardSt env ids).1
          = (st.forwardSt env ids).1)
    ∧ (∀ (st : ColumnParallelLinearLayer ℚ)
        (env : List (List (List ℚ))) (x : List (List ℚ)),
      (st.forwardSt env x).2 = st
      ∧ ((st.forwardSt env x).2.forwardSt env x).1 = (st.forwardSt env x).1)
    ∧ (∀ (st : RowParallelLinearLayer ℚ)
        (env : List (List (List ℚ))) (x : List (List ℚ)),
      (st.forwardSt env x).2 = st
      ∧ ((st.forwardSt env x).2.forwardSt env x).1 = (st.forwardSt env x).1)
    ∧ (∀ (st : ArcfaceColumnParallelLinearLayer ℚ) (sqrtFn : ℚ → ℚ) (eps : ℚ)
        (embParts : List (List (List ℚ))) (labelParts : List (List ℤ)),
      (st.forwardSt sqrtFn eps embParts labelParts).2 = st
      ∧ ((st.forwardSt sqrtFn eps embParts labelParts).2.forwardSt
            sqrtFn eps embParts labelParts).1
          = (st.forwardSt sqrtFn eps embParts labelParts).1) :=
  ⟨fun _ _ _ => ⟨rfl, rfl⟩, fun _ _ _ => ⟨rfl, rfl⟩, fun _ _ _ => ⟨rfl, rfl⟩,
   fun _ _ _ => ⟨rfl, rfl⟩, fun _ _ _ _ _ => ⟨rfl, rfl⟩⟩

/-- `torch.split(master, size, dim=0)`: contiguous row blocks of `size`
rows (a smaller final block when the length is not a multiple). -/
def splitDim0 (size : ℕ) (m : List (List α)) : List (List (List α)) :=
  (List.range ((m.length + size - 1) / size)).map
    (fun k => (m.drop (k * size)).take size)

/-- `torch.split(master, size, dim=1)`: contiguous column blocks of `size`
columns. -/
def splitDim1 (size : ℕ) (m : List (List α)) : List (List (List α)) :=
  (List.range (((m.headD []).length + size - 1) / size)).map
    (fun k => m.map (fun row => (row.drop (k * size)).take size))

/-- `torch.split` along the partition dimension (0 or 1). -/
def splitTensor (dim size : ℕ) (m : List (List α)) :
    List (List (List α)) :=
  if dim = 0 then splitDim0 size m else splitDim1 size m

/-- `torch.cat(pieces, dim)` along the partition dimension (0 or 1). -/
def catTensor (dim : ℕ) (pieces : List (List (List α))) : List (List α) :=
  if dim = 0 then pieces.flatten else gatherConcat1 pieces

/-- Python slice `l[start::step]`. -/
def sliceStep {β : Type} (start step : ℕ) (l : List β) : List β :=
  (List.range l.length).filterMap
    (fun i => if start ≤ i ∧ (i - start) % step = 0 then l[i]? else none)

/-- `torch.empty(output_size, input_size)` modelled as an allocation of the
declared shape (contents irrelevant: `init_method` overwrites them). -/
def emptyTensor (output_size input_size : ℕ) : List (List α) :=
  List.replicate output_size (List.replicate input_size 0)

/-- `_initialize_affine_weight` (layers.py:29-61) over an explicit tensor
store (a list of allocated 2-D tensors) so that aliasing and allocation are
observable: the pre-allocated local shard lives at index `weightRef`.  With
`world_size == 1` the shard itself is initialized in place and the function
returns the shard's own reference (no master allocated).  Otherwise a
master weight is allocated and initialized, `divide(per_partition_size,
stride)` is computed — raising the configuration error before anything is
assigned into the shard when the division is not exact — and on success
this rank's strided chunks are concatenated into the shard. -/
def initAffineWeight (world rank : ℕ)
    (output_size input_size per_partition_size partition_dim : ℕ)
    (init_method : List (List α) → List (List α)) (stride : ℕ)
    (return_master_weight : Bool)
    (store : List (List (List α))) (weightRef : ℕ) :
    List (List (List α)) × Except String (Option ℕ) :=
  if world = 1 then
    (store.set weightRef (init_method (store.getD weightRef [])),
     .ok (if return_master_weight then some weightRef else none))
  else
    let masterRef := store.length
    let master := init_method (emptyTensor output_size input_size)
    let store1 := store ++ [master]
    match VocabUtility.divide per_partition_size stride with
    | none => (store1, Except.error "ConfigurationError")
    | some per_partition_per_stride_size =>
      let weight_list := splitTensor partition_dim
        per_partition_per_stride_size master
      let my_weight_list := sliceStep rank world weight_list
      (store1.set weightRef (catTensor partition_dim my_weight_list),
       Except.ok (if return_master_weight then some masterRef else none))

/-- C9: with world size 1, `_initialize_affine_weight` initializes the
shard in place and returns the shard tensor itself (the same reference)
when `return_master_weight` is true, `None` when it is false, and never
allocates a master tensor distinct from the shard (the store keeps its
size). -/
theorem init_affine_weight_world_one
    (rank output_size input_size per_partition_size partition_dim stride : ℕ)
    (init_method : List (List ℚ) → List (List ℚ)) (rmw : Bool)
    (store : List (List (List ℚ))) (weightRef : ℕ) :
    (initAffineWeight 1 rank output_size input_size per_partition_size
        partition_dim init_method stride rmw store weightRef).2
      = Except.ok (if rmw then some weightRef else none)
    ∧ (initAffineWeight 1 rank output_size input_size per_partition_size
        partition_dim init_method stride rmw store weightRef).1
      = store.set weightRef (init_method (store.getD weightRef []))
    ∧ (initAffineWeight 1 rank output_size input_size per_partition_size
        partition_dim init_method stride rmw store weightRef).1.length
      = store.length := by
  refine ⟨rfl, rfl, ?_⟩
  show (store.set weightRef _).length = store.length
  exact List.length_set store _ _

/-- C10: with world size greater than 1 and `per_partition_size` not
divisible by `stride`, `_initialize_affine_weight` fails with the
configuration error from `divide`, and the local shard is untouched — the
error is raised before any chunk of the master is assigned into it. -/
theorem init_affine_weight_stride_error
    (world rank output_size input_size per_partition_size partition_dim
      stride : ℕ)
    (init_method : List (List ℚ) → List (List ℚ)) (rmw : Bool)
    (store : List (List (List ℚ))) (weightRef : ℕ)
    (hworld : world ≠ 1) (hstride : per_partition_size % stride ≠ 0)
    (href : weightRef < store.length) :
    (initAffineWeight world rank output_size input_size per_partition_size
        partition_dim init_method stride rmw store weightRef).2
      = Except.error "ConfigurationError"
    ∧ (initAffineWeight world rank output_size input_size per_partition_size
        partition_dim init_method stride rmw store weightRef).1.getD
          weightRef []
      = store.getD weightRef [] := by
  have hdiv : VocabUtility.divide per_partition_size stride = none := by
    simp [VocabUtility.divide, hstride]
  unfold initAffineWeight
  rw [if_neg hworld, hdiv]
  refine ⟨rfl, ?_⟩
  show ((store ++ [_]).getD weightRef []) = store.getD weightRef []
  rw [List.getD_eq_getElem _ [] (by simp; omega),
    List.getElem_append_left href, List.getD_eq_getElem _ [] href]

/-- Witness for `init_affine_weight_stride_error`: two ranks, partition
size 1, stride 2. -/
theorem init_affine_weight_stride_error_witness :
    ((2 : ℕ) ≠ 1 ∧ (1 : ℕ) % 2 ≠ 0
      ∧ 0 < ([[[(1 : ℚ)]]] : List (List (List ℚ))).length)
    ∧ ((initAffineWeight 2 0 2 1 1 0 id 2 false [[[(1 : ℚ)]]] 0).2
        = Except.error "ConfigurationError"
      ∧ (initAffineWeight 2 0 2 1 1 0 id 2 false [[[(1 : ℚ)]]] 0).1.getD 0 []
        = ([[[(1 : ℚ)]]] : List (List (List ℚ))).getD 0 []) :=
  ⟨⟨by decide, by decide, by decide⟩,
   init_affine_weight_stride_error 2 0 2 1 1 0 2 id false [[[(1 : ℚ)]]] 0
     (by decide) (by decide) (by decide)⟩

end MPU
